import Mathlib

/-!
Verification of the absence-accounting core shared by the two apps
src/streamlit_app.py (INCLUSIVE counting) and
src/streamlit_ilr_policy_app.py (UKVI whole-day counting).

Calendar dates are embedded two ways, mirroring how the python code uses
them.  Most of the core only compares dates and adds or subtracts whole
days (timedelta), which is order-isomorphic to integer arithmetic, so
trip endpoints, absent days and window bounds are integer day serials.
The fixed-block partitioner and the key-date calculator additionally use
dateutil.relativedelta(years=n), a genuinely calendar operation, so a
year/month/day record type is embedded as well, with toSerial mapping it
to the serial representation.
-/

namespace ILR

/-- Gregorian leap-year rule, as used by python dates. -/
def isLeap (y : ℕ) : Bool := decide ((y % 4 = 0 ∧ ¬ y % 100 = 0) ∨ y % 400 = 0)

/-- Length of month m of year y, as used by python dates. -/
def daysInMonth (y m : ℕ) : ℕ :=
  if m = 2 then (if isLeap y then 29 else 28)
  else if m = 4 ∨ m = 6 ∨ m = 9 ∨ m = 11 then 30
  else 31

/-- Days of year y that lie strictly before month m, ignoring leap days. -/
def monthOffset (m : ℕ) : ℕ :=
  if m ≤ 1 then 0 else if m = 2 then 31 else if m = 3 then 59 else if m = 4 then 90
  else if m = 5 then 120 else if m = 6 then 151 else if m = 7 then 181
  else if m = 8 then 212 else if m = 9 then 243 else if m = 10 then 273
  else if m = 11 then 304 else 334

/-- Days of year y that lie strictly before month m. -/
def daysBeforeMonth (y m : ℕ) : ℕ :=
  monthOffset m + (if 3 ≤ m ∧ isLeap y = true then 1 else 0)

/-- Number of leap years strictly below y. -/
def leapsBefore (y : ℕ) : ℕ := (y + 3) / 4 - (y + 99) / 100 + (y + 399) / 400

/-- A calendar date, as stored in a python datetime.date value. -/
structure Date where
  year : ℕ
  month : ℕ
  day : ℕ
  deriving DecidableEq, Repr

/-- Validity of a year/month/day record as a calendar date. -/
def Date.Valid (d : Date) : Prop :=
  1 ≤ d.month ∧ d.month ≤ 12 ∧ 1 ≤ d.day ∧ d.day ≤ daysInMonth d.year d.month

instance (d : Date) : Decidable d.Valid := by
  unfold Date.Valid; infer_instance

/-- Day serial of a date: days elapsed since 0000-01-01.  Python date
ordering and timedelta day arithmetic correspond to integer ordering and
arithmetic on serials. -/
def toSerial (d : Date) : ℤ :=
  365 * (d.year : ℤ) + (leapsBefore d.year : ℤ)
    + (daysBeforeMonth d.year d.month : ℤ) + (d.day : ℤ) - 1

/-- Embedding of dateutil relativedelta(years=n) on a date: the year is
advanced and the day is clamped to the length of the resulting month
(Feb 29 falls back to Feb 28 in a non-leap year). -/
def addYears (d : Date) (n : ℕ) : Date :=
  ⟨d.year + n, d.month, min d.day (daysInMonth (d.year + n) d.month)⟩

/-- Iterated one-year advancement, as performed by the fixed-block loops
of both apps, which add relativedelta(years=1) once per block. -/
def addYearsIter (d : Date) : ℕ → Date
  | 0 => d
  | k + 1 => addYears (addYearsIter d k) 1

/-- Embedding of compute_dates from src/streamlit_app.py (and of the
identical helper in src/streamlit_ilr_policy_app.py): the qualifying
date is the residence start advanced by five calendar years, and the
earliest application day is its serial minus 28 days. -/
def compute_dates (res_start : Date) : Date × ℤ :=
  let qualifying := addYears res_start 5
  (qualifying, toSerial qualifying - 28)

/-- A raw trip row: optional departure and return day serials. -/
abbrev RawTrip := Option ℤ × Option ℤ

/-- Embedding of normalise_trip from src/streamlit_ilr_policy_app.py:
a trip with a missing endpoint becomes (none, none), otherwise the two
endpoints are ordered by swapping when the return precedes the exit. -/
def normalise_trip : RawTrip → RawTrip
  | (some outd, some back) =>
    if back < outd then (some back, some outd) else (some outd, some back)
  | _ => (none, none)

/-- Absent days contributed by one trip row in compute_absence of
src/streamlit_app.py (INCLUSIVE counting): rows with a missing endpoint
are skipped, the endpoints are normalised with min and max, spans fully
outside the window are skipped, and the span is clipped to the window
and enumerated inclusively. -/
def tripAbsInclusive (s e : ℤ) : RawTrip → Finset ℤ
  | (some outd, some back) =>
    let a := min outd back
    let b := max outd back
    if b < s ∨ e < a then ∅
    else Finset.Icc (max a s) (min b e)
  | _ => ∅

/-- Absent days contributed by one trip row in count_absences_ukvi of
src/streamlit_ilr_policy_app.py: after normalise_trip, the departure and
return days are excluded, spans fully outside the window are skipped,
and the clipped span is enumerated when it is nonempty. -/
def tripAbsUkvi (s e : ℤ) (t : RawTrip) : Finset ℤ :=
  match normalise_trip t with
  | (some outd, some back) =>
    let a := outd + 1
    let b := back - 1
    if b < s ∨ e < a then ∅
    else if max a s ≤ min b e then Finset.Icc (max a s) (min b e) else ∅
  | _ => ∅

/-- The absent-day set built by the materializer loop of compute_absence
in src/streamlit_app.py: the union over all trip rows of their clipped
inclusive spans, accumulated into one set. -/
def compute_absence_set (trips : List RawTrip) (s e : ℤ) : Finset ℤ :=
  trips.foldl (fun acc t => acc ∪ tripAbsInclusive s e t) ∅

/-- Embedding of count_absences_ukvi from src/streamlit_ilr_policy_app.py:
the union over all trip rows of their clipped whole-day spans. -/
def count_absences_ukvi (trips : List RawTrip) (s e : ℤ) : Finset ℤ :=
  trips.foldl (fun acc t => acc ∪ tripAbsUkvi s e t) ∅

/-- The while loop advancing the left pointer inside the rolling scans
of both apps: j is incremented while days[j] is before the window start.
The python loop reads days[j] unconditionally; the embedding guards the
read, and the guard is proved never to bind, and the loop runs at most
days.length steps, so calling it with fuel days.length is exact. -/
def advanceJ (days : List ℤ) (sw : ℤ) : ℕ → ℕ → ℕ
  | j, 0 => j
  | j, fuel + 1 =>
    if h : j < days.length then
      if days.get ⟨j, h⟩ < sw then advanceJ days sw (j + 1) fuel else j
    else j

/-- The two-pointer scan shared by rolling_12m_max in
src/streamlit_ilr_policy_app.py and the inline rolling loop of
compute_absence in src/streamlit_app.py: for each index i the left
pointer is advanced past days earlier than days[i] - 364, the window
count is i - j + 1, and a strictly larger count updates the best count
and the best window end.  The scan visits each index once, so fuel
days.length is exact. -/
def rollLoop (days : List ℤ) : ℕ → ℕ → ℕ → Option ℤ → ℕ → ℕ × Option ℤ
  | _, _, best, bestEnd, 0 => (best, bestEnd)
  | i, j, best, bestEnd, fuel + 1 =>
    if h : i < days.length then
      let d := days.get ⟨i, h⟩
      let j2 := advanceJ days (d - 364) j days.length
      let c := i - j2 + 1
      if best < c then rollLoop days (i + 1) j2 c (some d) fuel
      else rollLoop days (i + 1) j2 best bestEnd fuel
    else (best, bestEnd)

/-- Embedding of rolling_12m_max from src/streamlit_ilr_policy_app.py:
on an empty absent set the result is (0, none, none); otherwise the
absent days are sorted ascending, the two-pointer scan is run, and the
best window is reported as (count, end - 364 days, end). -/
def rolling_12m_max (absent_days : Finset ℤ) : ℕ × Option ℤ × Option ℤ :=
  if absent_days = ∅ then (0, none, none)
  else
    let days := absent_days.sort (· ≤ ·)
    let r := rollLoop days 0 0 0 none days.length
    (r.1, r.2.map (fun d => d - 364), r.2)

/-- One row of the fixed anniversary block table of either app. -/
structure FixedBlock where
  index : ℕ
  start : ℤ
  stop : ℤ
  count : ℕ
  breach : Bool
  deriving DecidableEq, Repr

/-- The fixed-block while loop shared by build_fixed_blocks in
src/streamlit_ilr_policy_app.py and the inline block loop of
compute_absence in src/streamlit_app.py: while the current year start
is at most the window end, a block is emitted ending at the next
anniversary minus one day truncated to the window end, the absent days
inside the block are counted, breach is flagged when the count exceeds
the cap, and the year start advances by one calendar year.  The year
start strictly increases at every step, so fuel (e + 1 - toSerial cur)
is exact. -/
def blocksLoop (absent : Finset ℤ) (e : ℤ) (cap : ℕ) : Date → ℕ → ℕ → List FixedBlock
  | _, _, 0 => []
  | cur, i, fuel + 1 =>
    if toSerial cur ≤ e then
      let ye := min (toSerial (addYears cur 1) - 1) e
      let c := (absent.filter (fun d => toSerial cur ≤ d ∧ d ≤ ye)).card
      ⟨i + 1, toSerial cur, ye, c, decide (cap < c)⟩
        :: blocksLoop absent e cap (addYears cur 1) (i + 1) fuel
    else []

/-- Embedding of build_fixed_blocks from src/streamlit_ilr_policy_app.py
(and of the identical inline loop of compute_absence in
src/streamlit_app.py). -/
def build_fixed_blocks (absent : Finset ℤ) (res_start : Date) (e : ℤ) (cap : ℕ) :
    List FixedBlock :=
  blocksLoop absent e cap res_start 0 (e + 1 - toSerial res_start).toNat

/-- The result record of compute_absence in src/streamlit_app.py. -/
structure AbsenceResult where
  total_absent_days : ℕ
  max_in_any_window : ℕ
  fixed_blocks : List FixedBlock
  breach : Bool
  deriving Repr

/-- Embedding of compute_absence from src/streamlit_app.py: build the
absent-day set, run the rolling two-pointer scan for the maximum count
in any 365-day window, build the fixed anniversary blocks, and flag an
overall breach when the maximum strictly exceeds the cap. -/
def compute_absence (trips : List RawTrip) (startDate endDate : Date) (cap : ℕ) :
    AbsenceResult :=
  let s := toSerial startDate
  let e := toSerial endDate
  let absent := compute_absence_set trips s e
  let days := absent.sort (· ≤ ·)
  let maxw := (rollLoop days 0 0 0 none days.length).1
  let fixed := blocksLoop absent e cap startDate 0 (e + 1 - s).toNat
  ⟨absent.card, maxw, fixed, decide (cap < maxw)⟩

/-- The pre-filter applied to parsed_trips in
src/streamlit_ilr_policy_app.py before count_absences_ukvi: trips whose
(normalised) return day precedes the residence start are removed. -/
def prefilterTrips (res_start : ℤ) (trips : List (ℤ × ℤ)) : List (ℤ × ℤ) :=
  trips.filter (fun p => res_start ≤ p.2)

/-- A default fixed block, used only as the fallback of list indexing. -/
def dfltBlock : FixedBlock := ⟨0, 0, 0, 0, false⟩

/-- The left pointer position the scan reaches for right index k, when
started from index 0: the least index whose day is inside the 365-day
window ending at days[k]. -/
def jLeast (days : List ℤ) (k : ℕ) : ℕ :=
  advanceJ days (days.getD k 0 - 364) 0 days.length

/-- The window count the scan computes at right index k. -/
def winCountIdx (days : List ℤ) (k : ℕ) : ℕ := k - jLeast days k + 1

/-! Calendar arithmetic lemmas. -/

lemma daysInMonth_ge (y m : ℕ) : 28 ≤ daysInMonth y m := by
  unfold daysInMonth; split_ifs <;> omega

lemma daysInMonth_le (y m : ℕ) : daysInMonth y m ≤ 31 := by
  unfold daysInMonth; split_ifs <;> omega

lemma daysInMonth_succ_lb (y m : ℕ) : daysInMonth y m ≤ daysInMonth (y + 1) m + 1 := by
  unfold daysInMonth; split_ifs <;> omega

lemma daysInMonth_ne_two (y y' m : ℕ) (hm : m ≠ 2) :
    daysInMonth y m = daysInMonth y' m := by
  unfold daysInMonth
  split_ifs <;> first | rfl | omega

lemma leapsBefore_succ_bounds (y : ℕ) :
    leapsBefore y ≤ leapsBefore (y + 1) ∧ leapsBefore (y + 1) ≤ leapsBefore y + 1 := by
  unfold leapsBefore; omega

lemma daysBeforeMonth_bounds (y m : ℕ) :
    monthOffset m ≤ daysBeforeMonth y m ∧ daysBeforeMonth y m ≤ monthOffset m + 1 := by
  unfold daysBeforeMonth; split_ifs <;> omega

lemma addYears_valid {d : Date} (h : d.Valid) (n : ℕ) : (addYears d n).Valid := by
  obtain ⟨h1, h2, h3, h4⟩ := h
  have h5 := daysInMonth_ge (d.year + n) d.month
  exact ⟨h1, h2, by simp [addYears]; omega, by simp [addYears]⟩

lemma toSerial_lt_addYears_one {d : Date} (h : d.Valid) :
    toSerial d < toSerial (addYears d 1) := by
  obtain ⟨h1, h2, h3, h4⟩ := h
  have h5 := leapsBefore_succ_bounds d.year
  have h6 := daysBeforeMonth_bounds d.year d.month
  have h7 := daysBeforeMonth_bounds (d.year + 1) d.month
  have h8 := daysInMonth_succ_lb d.year d.month
  simp only [toSerial, addYears]
  push_cast
  omega

lemma addYearsIter_succ_left (d : Date) (k : ℕ) :
    addYearsIter d (k + 1) = addYearsIter (addYears d 1) k := by
  induction k with
  | zero => rfl
  | succ k ih =>
    show addYears (addYearsIter d (k + 1)) 1 = addYears (addYearsIter (addYears d 1) k) 1
    rw [ih]

lemma addYearsIter_add (d : Date) (a b : ℕ) :
    addYearsIter d (a + b) = addYearsIter (addYearsIter d a) b := by
  induction b with
  | zero => rfl
  | succ b ih =>
    show addYears (addYearsIter d (a + b)) 1 = addYears (addYearsIter (addYearsIter d a) b) 1
    rw [ih]

lemma addYearsIter_valid {d : Date} (h : d.Valid) (k : ℕ) : (addYearsIter d k).Valid := by
  induction k with
  | zero => exact h
  | succ k ih => exact addYears_valid ih 1

lemma toSerial_addYearsIter_add {d : Date} (h : d.Valid) (k : ℕ) :
    toSerial d + k ≤ toSerial (addYearsIter d k) := by
  induction k with
  | zero => simp [addYearsIter]
  | succ k ih =>
    have h1 := toSerial_lt_addYears_one (addYearsIter_valid h k)
    show toSerial d + (k + 1 : ℕ) ≤ toSerial (addYears (addYearsIter d k) 1)
    push_cast
    omega

lemma toSerial_addYearsIter_strict_mono {d : Date} (h : d.Valid) {k k' : ℕ} (hk : k < k') :
    toSerial (addYearsIter d k) < toSerial (addYearsIter d k') := by
  have h1 : k' = k + (k' - k) := by omega
  rw [h1, addYearsIter_add]
  have h2 := toSerial_addYearsIter_add (addYearsIter_valid h k) (k' - k)
  have h3 : 1 ≤ k' - k := by omega
  have h4 : ((k' - k : ℕ) : ℤ) ≥ 1 := by exact_mod_cast h3
  omega

lemma toSerial_addYearsIter_mono {d : Date} (h : d.Valid) {k k' : ℕ} (hk : k ≤ k') :
    toSerial (addYearsIter d k) ≤ toSerial (addYearsIter d k') := by
  rcases Nat.eq_or_lt_of_le hk with rfl | hlt
  · exact le_refl _
  · exact le_of_lt (toSerial_addYearsIter_strict_mono h hlt)

lemma addYearsIter_of_day_le_28 {d : Date} (hd : d.day ≤ 28) (k : ℕ) :
    addYearsIter d k = ⟨d.year + k, d.month, d.day⟩ := by
  induction k with
  | zero => rfl
  | succ k ih =>
    show addYears (addYearsIter d k) 1 = _
    rw [ih]
    have h1 := daysInMonth_ge (d.year + k + 1) d.month
    simp only [addYears, Date.mk.injEq, and_true, true_and]
    omega

lemma addYearsIter_of_month_ne_two {d : Date} (hm : d.month ≠ 2)
    (hday : d.day ≤ daysInMonth d.year d.month) (k : ℕ) :
    addYearsIter d k = ⟨d.year + k, d.month, d.day⟩ := by
  induction k with
  | zero => rfl
  | succ k ih =>
    show addYears (addYearsIter d k) 1 = _
    rw [ih]
    have h1 : daysInMonth (d.year + k + 1) d.month = daysInMonth d.year d.month :=
      daysInMonth_ne_two _ _ _ hm
    simp only [addYears, Date.mk.injEq, and_true, true_and]
    omega

lemma isLeap_of_feb29 {d : Date} (h : d.Valid) (hm : d.month = 2) (hd : d.day = 29) :
    isLeap d.year = true := by
  obtain ⟨h1, h2, h3, h4⟩ := h
  rw [hm, hd] at h4
  by_contra hleap
  simp only [Bool.not_eq_true] at hleap
  have hdim : daysInMonth d.year 2 = 28 := by simp [daysInMonth, hleap]
  rw [hdim] at h4
  omega

lemma isLeap_add_not {y j : ℕ} (h : isLeap y = true) (hj : j % 4 ≠ 0) :
    isLeap (y + j) = false := by
  simp only [isLeap, decide_eq_true_eq] at h
  simp only [isLeap, decide_eq_false_iff_not]
  omega

lemma addYearsIter_five {d : Date} (h : d.Valid) : addYearsIter d 5 = addYears d 5 := by
  obtain ⟨h1, h2, h3, h4⟩ := h
  by_cases hd : d.day ≤ 28
  · rw [addYearsIter_of_day_le_28 hd]
    have h5 := daysInMonth_ge (d.year + 5) d.month
    simp only [addYears, Date.mk.injEq, and_true, true_and]
    omega
  · by_cases hm : d.month = 2
    · have hd29 : d.day = 29 := by
        rw [hm] at h4; unfold daysInMonth at h4
        split_ifs at h4 <;> omega
      have hleap : isLeap d.year = true := isLeap_of_feb29 ⟨h1, h2, h3, h4⟩ hm hd29
      have hnl : isLeap (d.year + 1) = false := isLeap_add_not hleap (by omega)
      have hnl5 : isLeap (d.year + 5) = false := isLeap_add_not hleap (by omega)
      have hdim1 : daysInMonth (d.year + 1) 2 = 28 := by simp [daysInMonth, hnl]
      have hdim5 : daysInMonth (d.year + 5) 2 = 28 := by simp [daysInMonth, hnl5]
      have hstep1 : addYears d 1 = ⟨d.year + 1, 2, 28⟩ := by
        simp only [addYears, hm, hd29, hdim1, Date.mk.injEq, and_true, true_and]
        omega
      rw [addYearsIter_succ_left, hstep1,
        addYearsIter_of_day_le_28 (d := ⟨d.year + 1, 2, 28⟩) (by simp)]
      simp only [addYears, hm, hd29, hdim5, Date.mk.injEq, and_true, true_and]
      omega
    · rw [addYearsIter_of_month_ne_two hm h4]
      have h5 : daysInMonth (d.year + 5) d.month = daysInMonth d.year d.month :=
        daysInMonth_ne_two _ _ _ hm
      simp only [addYears, h5, Date.mk.injEq, and_true, true_and]
      omega

/-! Fixed-block loop lemmas. -/

lemma blocksLoop_of_gt {absent : Finset ℤ} {e : ℤ} {cap : ℕ} {cur : Date} {i : ℕ}
    (hc : ¬ toSerial cur ≤ e) (fuel : ℕ) :
    blocksLoop absent e cap cur i fuel = [] := by
  cases fuel with
  | zero => rfl
  | succ fuel => simp [blocksLoop, hc]

lemma blocksLoop_succ_of_le {absent : Finset ℤ} {e : ℤ} {cap : ℕ} {cur : Date} {i : ℕ}
    (hc : toSerial cur ≤ e) (fuel : ℕ) :
    blocksLoop absent e cap cur i (fuel + 1) =
      ⟨i + 1, toSerial cur, min (toSerial (addYears cur 1) - 1) e,
        (absent.filter (fun d => toSerial cur ≤ d ∧
          d ≤ min (toSerial (addYears cur 1) - 1) e)).card,
        decide (cap < (absent.filter (fun d => toSerial cur ≤ d ∧
          d ≤ min (toSerial (addYears cur 1) - 1) e)).card)⟩
        :: blocksLoop absent e cap (addYears cur 1) (i + 1) fuel := by
  simp [blocksLoop, hc]

lemma blocksLoop_breach {absent : Finset ℤ} {e : ℤ} {cap : ℕ} :
    ∀ (fuel : ℕ) (cur : Date) (i : ℕ) (b : FixedBlock),
      b ∈ blocksLoop absent e cap cur i fuel → b.breach = decide (cap < b.count) := by
  intro fuel
  induction fuel with
  | zero => intro cur i b hb; simp [blocksLoop] at hb
  | succ fuel ih =>
    intro cur i b hb
    by_cases hc : toSerial cur ≤ e
    · rw [blocksLoop_succ_of_le hc] at hb
      rcases List.mem_cons.mp hb with rfl | hb
      · rfl
      · exact ih _ _ _ hb
    · rw [blocksLoop_of_gt hc] at hb
      simp at hb

lemma blocksLoop_get (absent : Finset ℤ) (e : ℤ) (cap : ℕ) :
    ∀ (fuel : ℕ) (cur : Date) (i : ℕ), cur.Valid → e < toSerial cur + (fuel : ℤ) →
      (∀ k : ℕ, (k < (blocksLoop absent e cap cur i fuel).length ↔
          toSerial (addYearsIter cur k) ≤ e))
      ∧ (∀ k : ℕ, k < (blocksLoop absent e cap cur i fuel).length →
          (blocksLoop absent e cap cur i fuel).getD k dfltBlock =
            ⟨i + k + 1, toSerial (addYearsIter cur k),
              min (toSerial (addYearsIter cur (k + 1)) - 1) e,
              (absent.filter (fun d => toSerial (addYearsIter cur k) ≤ d ∧
                d ≤ min (toSerial (addYearsIter cur (k + 1)) - 1) e)).card,
              decide (cap < (absent.filter (fun d => toSerial (addYearsIter cur k) ≤ d ∧
                d ≤ min (toSerial (addYearsIter cur (k + 1)) - 1) e)).card)⟩) := by
  intro fuel
  induction fuel with
  | zero =>
    intro cur i hv hf
    constructor
    · intro k
      have h1 := toSerial_addYearsIter_add hv k
      have h2 : (0 : ℤ) ≤ (k : ℕ) := Int.ofNat_nonneg k
      simp only [blocksLoop, List.length_nil]
      push_cast at hf
      constructor
      · omega
      · intro hP; omega
    · intro k hk
      simp [blocksLoop] at hk
  | succ fuel ih =>
    intro cur i hv hf
    by_cases hc : toSerial cur ≤ e
    · have hv1 : (addYears cur 1).Valid := addYears_valid hv 1
      have hstep : toSerial cur < toSerial (addYears cur 1) := toSerial_lt_addYears_one hv
      have hf1 : e < toSerial (addYears cur 1) + (fuel : ℤ) := by push_cast at hf ⊢; omega
      obtain ⟨ihL, ihG⟩ := ih (addYears cur 1) (i + 1) hv1 hf1
      constructor
      · intro k
        cases k with
        | zero =>
          rw [blocksLoop_succ_of_le hc]
          simp only [List.length_cons, addYearsIter]
          exact ⟨fun _ => hc, fun _ => Nat.succ_pos _⟩
        | succ k =>
          have h2 : addYearsIter cur (k + 1) = addYearsIter (addYears cur 1) k :=
            addYearsIter_succ_left cur k
          rw [blocksLoop_succ_of_le hc]
          simp only [List.length_cons, h2]
          rw [← ihL k]
          omega
      · intro k hk
        cases k with
        | zero =>
          rw [blocksLoop_succ_of_le hc]
          rfl
        | succ k =>
          rw [blocksLoop_succ_of_le hc] at hk ⊢
          have hk2 : k < (blocksLoop absent e cap (addYears cur 1) (i + 1) fuel).length := by
            simpa using hk
          have h2 : addYearsIter cur (k + 1) = addYearsIter (addYears cur 1) k :=
            addYearsIter_succ_left cur k
          have h3 : addYearsIter cur (k + 1 + 1) = addYearsIter (addYears cur 1) (k + 1) :=
            addYearsIter_succ_left cur (k + 1)
          simp only [List.getD_cons_succ]
          rw [ihG k hk2, h2, h3]
          have h4 : i + 1 + k + 1 = i + (k + 1) + 1 := by omega
          rw [h4]
    · rw [blocksLoop_of_gt hc]
      constructor
      · intro k
        have h1 := toSerial_addYearsIter_add hv k
        have h2 : (0 : ℤ) ≤ (k : ℕ) := Int.ofNat_nonneg k
        simp only [List.length_nil]
        constructor
        · omega
        · intro hP; omega
      · intro k hk
        simp at hk

lemma blocksLoop_cover {absent : Finset ℤ} {e : ℤ} {cap : ℕ} :
    ∀ (fuel : ℕ) (cur : Date) (i : ℕ), cur.Valid → e < toSerial cur + (fuel : ℤ) →
      ∀ d : ℤ, (toSerial cur ≤ d ∧ d ≤ e) ↔
        ∃ b ∈ blocksLoop absent e cap cur i fuel, b.start ≤ d ∧ d ≤ b.stop := by
  intro fuel
  induction fuel with
  | zero =>
    intro cur i hv hf d
    simp only [blocksLoop, List.not_mem_nil, false_and, exists_false, iff_false]
    push_cast at hf
    omega
  | succ fuel ih =>
    intro cur i hv hf d
    by_cases hc : toSerial cur ≤ e
    · have hv1 : (addYears cur 1).Valid := addYears_valid hv 1
      have hstep : toSerial cur < toSerial (addYears cur 1) := toSerial_lt_addYears_one hv
      have hf1 : e < toSerial (addYears cur 1) + (fuel : ℤ) := by push_cast at hf ⊢; omega
      rw [blocksLoop_succ_of_le hc]
      constructor
      · rintro ⟨hd1, hd2⟩
        by_cases hsplit : d ≤ min (toSerial (addYears cur 1) - 1) e
        · exact ⟨_, List.mem_cons_self _ _, hd1, hsplit⟩
        · have h5 : toSerial (addYears cur 1) ≤ d := by omega
          obtain ⟨b, hb, hspan⟩ := (ih (addYears cur 1) (i + 1) hv1 hf1 d).mp ⟨h5, hd2⟩
          exact ⟨b, List.mem_cons_of_mem _ hb, hspan⟩
      · rintro ⟨b, hb, hs1, hs2⟩
        rcases List.mem_cons.mp hb with rfl | hb
        · simp only at hs1 hs2
          omega
        · have h6 := (ih (addYears cur 1) (i + 1) hv1 hf1 d).mpr ⟨b, hb, hs1, hs2⟩
          omega
    · rw [blocksLoop_of_gt hc]
      simp only [List.not_mem_nil, false_and, exists_false, iff_false]
      omega

lemma build_fixed_blocks_fuel (res_start : Date) {e : ℤ} (he : toSerial res_start ≤ e) :
    e < toSerial res_start + (((e + 1 - toSerial res_start).toNat : ℕ) : ℤ) := by
  have h1 : (((e + 1 - toSerial res_start).toNat : ℕ) : ℤ) = e + 1 - toSerial res_start :=
    Int.toNat_of_nonneg (by omega)
  omega

/-- C2 (amended): for every valid residence start and every window end at
or after it, build_fixed_blocks emits a block for index k exactly while
the k-fold iterated one-year anniversary of the start is at or before the
window end; block k (1-based index k + 1) spans from that iterated
anniversary to the next iterated anniversary minus one day, truncated to
the window end; the union of the block spans covers the window exactly;
and the spans of two distinct blocks never share a day.  The iterated
anniversary equals start + k calendar years in a single step except when
the start is 29 February (see the counterexample). -/
theorem fixed_blocks_cover (res_start : Date) (e : ℤ) (absent : Finset ℤ) (cap : ℕ)
    (hv : res_start.Valid) (he : toSerial res_start ≤ e) :
    (∀ k : ℕ, (k < (build_fixed_blocks absent res_start e cap).length ↔
        toSerial (addYearsIter res_start k) ≤ e))
    ∧ (∀ k : ℕ, k < (build_fixed_blocks absent res_start e cap).length →
        ((build_fixed_blocks absent res_start e cap).getD k dfltBlock).start
            = toSerial (addYearsIter res_start k)
          ∧ ((build_fixed_blocks absent res_start e cap).getD k dfltBlock).stop
            = min (toSerial (addYearsIter res_start (k + 1)) - 1) e
          ∧ ((build_fixed_blocks absent res_start e cap).getD k dfltBlock).index = k + 1)
    ∧ (∀ d : ℤ, (toSerial res_start ≤ d ∧ d ≤ e) ↔
        ∃ b ∈ build_fixed_blocks absent res_start e cap, b.start ≤ d ∧ d ≤ b.stop)
    ∧ (∀ k1 k2 : ℕ, k1 < (build_fixed_blocks absent res_start e cap).length →
        k2 < (build_fixed_blocks absent res_start e cap).length → k1 ≠ k2 →
        ∀ d : ℤ,
          ¬ (((build_fixed_blocks absent res_start e cap).getD k1 dfltBlock).start ≤ d
            ∧ d ≤ ((build_fixed_blocks absent res_start e cap).getD k1 dfltBlock).stop
            ∧ ((build_fixed_blocks absent res_start e cap).getD k2 dfltBlock).start ≤ d
            ∧ d ≤ ((build_fixed_blocks absent res_start e cap).getD k2 dfltBlock).stop)) := by
  have hfuel := build_fixed_blocks_fuel res_start he
  obtain ⟨hL, hG⟩ :=
    blocksLoop_get absent e cap (e + 1 - toSerial res_start).toNat res_start 0 hv hfuel
  have hproj : ∀ k : ℕ, k < (build_fixed_blocks absent res_start e cap).length →
      ((build_fixed_blocks absent res_start e cap).getD k dfltBlock).start
          = toSerial (addYearsIter res_start k)
        ∧ ((build_fixed_blocks absent res_start e cap).getD k dfltBlock).stop
          = min (toSerial (addYearsIter res_start (k + 1)) - 1) e
        ∧ ((build_fixed_blocks absent res_start e cap).getD k dfltBlock).index = k + 1 := by
    intro k hk
    unfold build_fixed_blocks at hk ⊢
    rw [hG k hk]
    exact ⟨rfl, rfl, by simp⟩
  refine ⟨hL, hproj, ?_, ?_⟩
  · exact blocksLoop_cover (e + 1 - toSerial res_start).toNat res_start 0 hv hfuel
  · have key : ∀ a b : ℕ, a < b →
        b < (build_fixed_blocks absent res_start e cap).length →
        ∀ d : ℤ,
          ¬ (((build_fixed_blocks absent res_start e cap).getD a dfltBlock).start ≤ d
            ∧ d ≤ ((build_fixed_blocks absent res_start e cap).getD a dfltBlock).stop
            ∧ ((build_fixed_blocks absent res_start e cap).getD b dfltBlock).start ≤ d
            ∧ d ≤ ((build_fixed_blocks absent res_start e cap).getD b dfltBlock).stop) := by
      intro a b hab hb d hcon
      have ha : a < (build_fixed_blocks absent res_start e cap).length := by omega
      obtain ⟨_, hstopa, _⟩ := hproj a ha
      obtain ⟨hstartb, _, _⟩ := hproj b hb
      have hmono : toSerial (addYearsIter res_start (a + 1)) ≤
          toSerial (addYearsIter res_start b) :=
        toSerial_addYearsIter_mono hv (by omega)
      rw [hstopa] at hcon
      rw [hstartb] at hcon
      omega
    intro k1 k2 hk1 hk2 hne d hcon
    rcases Nat.lt_or_ge k1 k2 with hlt | hge
    · exact key k1 k2 hlt hk2 d ⟨hcon.1, hcon.2.1, hcon.2.2.1, hcon.2.2.2⟩
    · have hlt : k2 < k1 := by omega
      exact key k2 k1 hlt hk1 d ⟨hcon.2.2.1, hcon.2.2.2, hcon.1, hcon.2.1⟩

/-- C2 counterexample: for the leap-day residence start 2020-02-29, with
the five-year window end, the fifth emitted block (index k = 4) starts
at serial of 2024-02-28 (the iterated anniversary), not at the serial of
start + 4 calendar years, which is 2024-02-29, so the claimed formula
with a single k-year jump is false as stated. -/
theorem fixed_blocks_anniversary_formula_ce :
    ((build_fixed_blocks ∅ ⟨2020, 2, 29⟩
        (toSerial (addYears ⟨2020, 2, 29⟩ 5)) 180).getD 4 dfltBlock).start
      ≠ toSerial (addYears ⟨2020, 2, 29⟩ 4) := by
  decide

/-- C9: for every valid residence start, the fixed-block table over the
window from the residence start to the qualifying date (the start
advanced by five calendar years) has exactly six rows, and the sixth row
is a degenerate single-day block whose start and end both equal the
qualifying date, because the loop admits a block starting exactly at the
window end. -/
theorem fixed_blocks_six (res_start : Date) (absent : Finset ℤ) (cap : ℕ)
    (hv : res_start.Valid) :
    (build_fixed_blocks absent res_start (toSerial (compute_dates res_start).1) cap).length = 6
    ∧ ((build_fixed_blocks absent res_start
        (toSerial (compute_dates res_start).1) cap).getD 5 dfltBlock).start
      = toSerial (compute_dates res_start).1
    ∧ ((build_fixed_blocks absent res_start
        (toSerial (compute_dates res_start).1) cap).getD 5 dfltBlock).stop
      = toSerial (compute_dates res_start).1 := by
  have hq : (compute_dates res_start).1 = addYears res_start 5 := rfl
  rw [hq]
  have h5 : toSerial (addYearsIter res_start 5) = toSerial (addYears res_start 5) := by
    rw [addYearsIter_five hv]
  have he : toSerial res_start ≤ toSerial (addYears res_start 5) := by
    have h1 := toSerial_addYearsIter_add hv 5
    omega
  have hfuel := build_fixed_blocks_fuel res_start he
  obtain ⟨hL, hG⟩ :=
    blocksLoop_get absent (toSerial (addYears res_start 5)) cap
      (toSerial (addYears res_start 5) + 1 - toSerial res_start).toNat res_start 0 hv hfuel
  have h6 : toSerial (addYears res_start 5) < toSerial (addYearsIter res_start 6) := by
    have h2 : toSerial (addYearsIter res_start 5) < toSerial (addYearsIter res_start 6) :=
      toSerial_addYearsIter_strict_mono hv (by omega)
    omega
  have hlen5 : 5 < (build_fixed_blocks absent res_start
      (toSerial (addYears res_start 5)) cap).length := (hL 5).mpr (le_of_eq h5)
  have hlen6 : ¬ 6 < (build_fixed_blocks absent res_start
      (toSerial (addYears res_start 5)) cap).length :=
    fun hcon => absurd ((hL 6).mp hcon) (by omega)
  refine ⟨by omega, ?_, ?_⟩
  · have := hG 5 hlen5
    unfold build_fixed_blocks
    rw [this]
    exact h5
  · have := hG 5 hlen5
    unfold build_fixed_blocks
    rw [this]
    show min (toSerial (addYearsIter res_start 6) - 1) (toSerial (addYears res_start 5))
      = toSerial (addYears res_start 5)
    omega

/-! Two-pointer rolling window lemmas. -/

lemma advanceJ_spec (days : List ℤ) (sw : ℤ) :
    ∀ (fuel j k : ℕ), j ≤ k → k < days.length → sw ≤ days.getD k 0 → k ≤ j + fuel →
      j ≤ advanceJ days sw j fuel
      ∧ advanceJ days sw j fuel ≤ k
      ∧ sw ≤ days.getD (advanceJ days sw j fuel) 0
      ∧ ∀ l : ℕ, j ≤ l → l < advanceJ days sw j fuel → days.getD l 0 < sw := by
  intro fuel
  induction fuel with
  | zero =>
    intro j k hjk hk hsw hfuel
    have hjeq : j = k := by omega
    subst hjeq
    simp only [advanceJ]
    exact ⟨le_refl _, le_refl _, hsw, fun l hl1 hl2 => absurd hl1 (by omega)⟩
  | succ fuel ih =>
    intro j k hjk hk hsw hfuel
    have hjlen : j < days.length := by omega
    have hget : days.get ⟨j, hjlen⟩ = days.getD j 0 := (List.getD_eq_get days 0 hjlen).symm
    simp only [advanceJ, dif_pos hjlen, hget]
    by_cases hcond : days.getD j 0 < sw
    · rw [if_pos hcond]
      have hjne : j ≠ k := by
        intro heq
        rw [heq] at hcond
        omega
      obtain ⟨r1, r2, r3, r4⟩ := ih (j + 1) k (by omega) hk hsw (by omega)
      refine ⟨by omega, r2, r3, ?_⟩
      intro l hl1 hl2
      rcases Nat.eq_or_lt_of_le hl1 with rfl | hl
      · exact hcond
      · exact r4 l (by omega) hl2
    · rw [if_neg hcond]
      exact ⟨le_refl _, hjk, by omega, fun l hl1 hl2 => absurd hl1 (by omega)⟩

lemma jLeast_spec (days : List ℤ) {k : ℕ} (hk : k < days.length) :
    jLeast days k ≤ k
    ∧ days.getD k 0 - 364 ≤ days.getD (jLeast days k) 0
    ∧ ∀ l : ℕ, l < jLeast days k → days.getD l 0 < days.getD k 0 - 364 := by
  obtain ⟨r1, r2, r3, r4⟩ :=
    advanceJ_spec days (days.getD k 0 - 364) days.length 0 k (Nat.zero_le k) hk
      (by omega) (by omega)
  exact ⟨r2, r3, fun l hl => r4 l (Nat.zero_le l) hl⟩

lemma sorted_getD_lt {days : List ℤ} (hs : days.Sorted (· < ·)) {a b : ℕ}
    (hab : a < b) (hb : b < days.length) : days.getD a 0 < days.getD b 0 := by
  have ha : a < days.length := by omega
  rw [List.getD_eq_get days 0 ha, List.getD_eq_get days 0 hb]
  exact List.pairwise_iff_get.mp hs ⟨a, ha⟩ ⟨b, hb⟩ hab

lemma sorted_getD_le {days : List ℤ} (hs : days.Sorted (· < ·)) {a b : ℕ}
    (hab : a ≤ b) (hb : b < days.length) : days.getD a 0 ≤ days.getD b 0 := by
  rcases Nat.eq_or_lt_of_le hab with rfl | hlt
  · exact le_refl _
  · exact le_of_lt (sorted_getD_lt hs hlt hb)

lemma rollLoop_spec (days : List ℤ) (hs : days.Sorted (· < ·)) :
    ∀ (fuel i j best : ℕ) (be : Option ℤ),
      days.length ≤ i + fuel →
      (i < days.length → j ≤ i ∧ ∀ l : ℕ, l < j → days.getD l 0 < days.getD i 0 - 364) →
      (∀ k : ℕ, i ≤ k → k < days.length →
        winCountIdx days k ≤ (rollLoop days i j best be fuel).1)
      ∧ best ≤ (rollLoop days i j best be fuel).1
      ∧ ((rollLoop days i j best be fuel).1 = best ∧ (rollLoop days i j best be fuel).2 = be
          ∨ ∃ k : ℕ, i ≤ k ∧ k < days.length
              ∧ (rollLoop days i j best be fuel).1 = winCountIdx days k
              ∧ (rollLoop days i j best be fuel).2 = some (days.getD k 0)) := by
  intro fuel
  induction fuel with
  | zero =>
    intro i j best be hfuel hinv
    simp only [rollLoop]
    exact ⟨fun k hk1 hk2 => absurd hk2 (by omega), le_refl _, Or.inl ⟨by trivial, by trivial⟩⟩
  | succ fuel ih =>
    intro i j best be hfuel hinv
    by_cases hi : i < days.length
    · obtain ⟨hji, hbelow⟩ := hinv hi
      have hget : days.get ⟨i, hi⟩ = days.getD i 0 := (List.getD_eq_get days 0 hi).symm
      simp only [rollLoop, dif_pos hi, hget]
      obtain ⟨a1, a2, a3, a4⟩ :=
        advanceJ_spec days (days.getD i 0 - 364) days.length j i hji hi (by omega) (by omega)
      set j2 := advanceJ days (days.getD i 0 - 364) j days.length with hj2def
      have hbelow2 : ∀ l : ℕ, l < j2 → days.getD l 0 < days.getD i 0 - 364 := by
        intro l hl
        by_cases hlj : l < j
        · exact hbelow l hlj
        · exact a4 l (by omega) hl
      obtain ⟨b1, b2, b3⟩ := jLeast_spec days hi
      have hj2eq : j2 = jLeast days i := by
        rcases Nat.lt_trichotomy j2 (jLeast days i) with hlt | heq | hgt
        · have := b3 j2 hlt
          omega
        · exact heq
        · have := hbelow2 (jLeast days i) hgt
          omega
      have hWC : winCountIdx days i = i - j2 + 1 := by
        unfold winCountIdx
        rw [hj2eq]
      have hinv2 : i + 1 < days.length →
          j2 ≤ i + 1 ∧ ∀ l : ℕ, l < j2 → days.getD l 0 < days.getD (i + 1) 0 - 364 := by
        intro hi1
        refine ⟨by omega, ?_⟩
        intro l hl
        have h1 := hbelow2 l hl
        have h2 : days.getD i 0 < days.getD (i + 1) 0 := sorted_getD_lt hs (by omega) hi1
        omega
      by_cases hcmp : best < i - j2 + 1
      · rw [if_pos hcmp]
        obtain ⟨c1, c2, c3⟩ :=
          ih (i + 1) j2 (i - j2 + 1) (some (days.getD i 0)) (by omega) hinv2
        refine ⟨?_, by omega, ?_⟩
        · intro k hk1 hk2
          rcases Nat.eq_or_lt_of_le hk1 with rfl | hk
          · rw [hWC]; omega
          · exact c1 k (by omega) hk2
        · rcases c3 with ⟨hb, he⟩ | ⟨k, hk1, hk2, hk3, hk4⟩
          · exact Or.inr ⟨i, le_refl i, hi, by rw [hb, hWC], he⟩
          · exact Or.inr ⟨k, by omega, hk2, hk3, hk4⟩
      · rw [if_neg hcmp]
        obtain ⟨c1, c2, c3⟩ := ih (i + 1) j2 best be (by omega) hinv2
        refine ⟨?_, c2, ?_⟩
        · intro k hk1 hk2
          rcases Nat.eq_or_lt_of_le hk1 with rfl | hk
          · rw [hWC]; omega
          · exact c1 k (by omega) hk2
        · rcases c3 with ⟨hb, he⟩ | ⟨k, hk1, hk2, hk3, hk4⟩
          · exact Or.inl ⟨hb, he⟩
          · exact Or.inr ⟨k, by omega, hk2, hk3, hk4⟩
    · simp only [rollLoop, dif_neg hi]
      exact ⟨fun k hk1 hk2 => absurd hk2 (by omega), le_refl _, Or.inl ⟨by trivial, by trivial⟩⟩

lemma card_filter_eq_countP_sort (s : Finset ℤ) (p : ℤ → Prop) [DecidablePred p] :
    (s.filter p).card = (s.sort (· ≤ ·)).countP (fun d => decide (p d)) := by
  have h1 : (s.filter p).card = Multiset.countP p s.val := by
    rw [Multiset.countP_eq_card_filter]
    rfl
  rw [h1, ← Finset.sort_eq (· ≤ ·) s, Multiset.coe_countP]

lemma countP_eq_card_index_filter (l : List ℤ) (p : ℤ → Bool) :
    l.countP p = ((Finset.range l.length).filter (fun i => p (l.getD i 0) = true)).card := by
  induction l with
  | nil => simp
  | cons a l ih =>
    rw [List.countP_cons, ih]
    rw [Finset.card_filter, Finset.card_filter]
    rw [List.length_cons, Finset.sum_range_succ']
    simp only [List.getD_cons_succ, List.getD_cons_zero]

lemma winCountIdx_eq_card (s : Finset ℤ) {k : ℕ}
    (hk : k < (s.sort (· ≤ ·)).length) :
    winCountIdx (s.sort (· ≤ ·)) k =
      (s.filter (fun d => (s.sort (· ≤ ·)).getD k 0 - 364 ≤ d ∧
        d ≤ (s.sort (· ≤ ·)).getD k 0)).card := by
  set days := s.sort (· ≤ ·) with hdays
  have hs : days.Sorted (· < ·) := by rw [hdays]; exact Finset.sort_sorted_lt s
  obtain ⟨b1, b2, b3⟩ := jLeast_spec days hk
  have hidx : ((Finset.range days.length).filter
      (fun i => decide (days.getD k 0 - 364 ≤ days.getD i 0
        ∧ days.getD i 0 ≤ days.getD k 0) = true))
      = Finset.Icc (jLeast days k) k := by
    ext l
    simp only [Finset.mem_filter, Finset.mem_range, Finset.mem_Icc, decide_eq_true_eq]
    constructor
    · rintro ⟨hl, h1, h2⟩
      constructor
      · by_contra hjl
        have h3 := b3 l (by omega)
        omega
      · by_contra hkl
        have h3 := sorted_getD_lt hs (show k < l by omega) hl
        omega
    · rintro ⟨h1, h2⟩
      have hl : l < days.length := by omega
      refine ⟨hl, ?_, sorted_getD_le hs h2 hk⟩
      have h3 := sorted_getD_le hs h1 hl
      omega
  rw [card_filter_eq_countP_sort, ← hdays, countP_eq_card_index_filter, hidx, Nat.card_Icc]
  unfold winCountIdx
  omega

lemma windowCount_le_best (s : Finset ℤ) (best : ℕ)
    (hbest : ∀ k : ℕ, k < (s.sort (· ≤ ·)).length → winCountIdx (s.sort (· ≤ ·)) k ≤ best)
    (E : ℤ) :
    (s.filter (fun d => E - 364 ≤ d ∧ d ≤ E)).card ≤ best := by
  by_cases hne : (s.filter (fun d => E - 364 ≤ d ∧ d ≤ E)).Nonempty
  · have hmmem := Finset.max'_mem _ hne
    rw [Finset.mem_filter] at hmmem
    obtain ⟨hms, hm1, hm2⟩ := hmmem
    have hmdays : (s.filter (fun d => E - 364 ≤ d ∧ d ≤ E)).max' hne ∈ s.sort (· ≤ ·) :=
      (Finset.mem_sort _).mpr hms
    obtain ⟨k, hk, hkm⟩ := List.mem_iff_getElem.mp hmdays
    have hkE : (s.sort (· ≤ ·)).getD k 0 = (s.filter (fun d => E - 364 ≤ d ∧ d ≤ E)).max' hne := by
      rw [List.getD_eq_getElem (s.sort (· ≤ ·)) 0 hk]
      exact hkm
    have hsub : s.filter (fun d => E - 364 ≤ d ∧ d ≤ E)
        ⊆ s.filter (fun d => (s.sort (· ≤ ·)).getD k 0 - 364 ≤ d ∧
            d ≤ (s.sort (· ≤ ·)).getD k 0) := by
      intro d hd
      rw [Finset.mem_filter] at hd ⊢
      obtain ⟨hds, hd1, hd2⟩ := hd
      have hdm : d ≤ (s.filter (fun d => E - 364 ≤ d ∧ d ≤ E)).max' hne :=
        Finset.le_max' _ d (Finset.mem_filter.mpr ⟨hds, hd1, hd2⟩)
      rw [hkE]
      exact ⟨hds, by omega, by omega⟩
    have hcard := Finset.card_le_card hsub
    have heq := winCountIdx_eq_card s hk
    have hb := hbest k hk
    omega
  · have h0 : (s.filter (fun d => E - 364 ≤ d ∧ d ≤ E)).card = 0 := by
      rw [Finset.card_eq_zero]
      exact Finset.not_nonempty_iff_eq_empty.mp hne
    omega

lemma rolling_12m_max_fst (X : Finset ℤ) :
    (rolling_12m_max X).1
      = (rollLoop (X.sort (· ≤ ·)) 0 0 0 none (X.sort (· ≤ ·)).length).1 := by
  by_cases hXe : X = ∅
  · subst hXe
    simp [rolling_12m_max, Finset.sort_empty, rollLoop]
  · simp [rolling_12m_max, hXe]

/-- C1: the rolling-window evaluator is correct.  For every absent-day
set, every contiguous 365-day window (here the window ending at any day
E, spanning E - 364 through E inclusive) contains at most max_count
absent days; when the set is nonempty the reported window end we is
returned together with window start we - 364, and that window contains
exactly max_count absent days.  The third conjunct ties the inline scan
of compute_absence in src/streamlit_app.py to the same evaluator. -/
theorem rolling_window_max_correct (absent : Finset ℤ) :
    (∀ E : ℤ, (absent.filter (fun d => E - 364 ≤ d ∧ d ≤ E)).card ≤ (rolling_12m_max absent).1)
    ∧ (absent.Nonempty →
        ∃ we : ℤ, (rolling_12m_max absent).2.2 = some we
          ∧ (rolling_12m_max absent).2.1 = some (we - 364)
          ∧ (absent.filter (fun d => we - 364 ≤ d ∧ d ≤ we)).card = (rolling_12m_max absent).1)
    ∧ (∀ (trips : List RawTrip) (startDate endDate : Date) (cap : ℕ),
        (compute_absence trips startDate endDate cap).max_in_any_window
          = (rolling_12m_max (compute_absence_set trips (toSerial startDate)
              (toSerial endDate))).1) := by
  have hc : ∀ (trips : List RawTrip) (startDate endDate : Date) (cap : ℕ),
      (compute_absence trips startDate endDate cap).max_in_any_window
        = (rolling_12m_max (compute_absence_set trips (toSerial startDate)
            (toSerial endDate))).1 := by
    intro trips sD eD cap
    rw [rolling_12m_max_fst]
    rfl
  by_cases h : absent = ∅
  · subst h
    refine ⟨?_, ?_, hc⟩
    · intro E
      simp [rolling_12m_max]
    · intro hne
      exact absurd hne (by simp)
  · have hs : (absent.sort (· ≤ ·)).Sorted (· < ·) := Finset.sort_sorted_lt absent
    have hlen : 0 < (absent.sort (· ≤ ·)).length := by
      rw [Finset.length_sort]
      exact Finset.card_pos.mpr (Finset.nonempty_iff_ne_empty.mpr h)
    obtain ⟨c1, c2, c3⟩ :=
      rollLoop_spec (absent.sort (· ≤ ·)) hs (absent.sort (· ≤ ·)).length 0 0 0 none
        (by omega) (fun hi => ⟨le_refl 0, fun l hl => absurd hl (by omega)⟩)
    have hfst : (rolling_12m_max absent).1
        = (rollLoop (absent.sort (· ≤ ·)) 0 0 0 none (absent.sort (· ≤ ·)).length).1 :=
      rolling_12m_max_fst absent
    have hsnd : (rolling_12m_max absent).2.2
        = (rollLoop (absent.sort (· ≤ ·)) 0 0 0 none (absent.sort (· ≤ ·)).length).2 := by
      simp [rolling_12m_max, h]
    have hmid : (rolling_12m_max absent).2.1
        = ((rollLoop (absent.sort (· ≤ ·)) 0 0 0 none (absent.sort (· ≤ ·)).length).2).map
            (fun d => d - 364) := by
      simp [rolling_12m_max, h]
    refine ⟨?_, ?_, hc⟩
    · intro E
      rw [hfst]
      exact windowCount_le_best absent _ (fun k hk => c1 k (Nat.zero_le k) hk) E
    · intro hne
      rcases c3 with ⟨hb, he⟩ | ⟨k, hk1, hk2, hk3, hk4⟩
      · exfalso
        have h1 := c1 0 (le_refl 0) hlen
        have h2 : 1 ≤ winCountIdx (absent.sort (· ≤ ·)) 0 := by
          unfold winCountIdx
          omega
        omega
      · refine ⟨(absent.sort (· ≤ ·)).getD k 0, ?_, ?_, ?_⟩
        · rw [hsnd, hk4]
        · rw [hmid, hk4]
          rfl
        · rw [hfst, hk3]
          exact (winCountIdx_eq_card absent hk2).symm

/-- C1 witness at the singleton absent set containing day 0. -/
theorem rolling_window_max_correct_witness :
    ({0} : Finset ℤ).Nonempty
    ∧ (∃ we : ℤ, (rolling_12m_max ({0} : Finset ℤ)).2.2 = some we
        ∧ (rolling_12m_max ({0} : Finset ℤ)).2.1 = some (we - 364)
        ∧ ((({0} : Finset ℤ).filter (fun d => we - 364 ≤ d ∧ d ≤ we)).card
            = (rolling_12m_max ({0} : Finset ℤ)).1)) := by
  have h0 : ({0} : Finset ℤ).Nonempty := ⟨0, Finset.mem_singleton_self 0⟩
  exact ⟨h0, (rolling_window_max_correct {0}).2.1 h0⟩

/-- C8: in the two-pointer scan, whenever the left pointer j is at most
the right index i on entry, the advanced left pointer still is at most i
(so it never overtakes the right index) and in particular stays strictly
inside the list, so the indexed read days[j] of the inner while loop is
always in bounds; the reason is that the element at index i itself
satisfies days[i] ≥ days[i] - 364, so the advance stops at or before i. -/
theorem rolling_pointer_le (days : List ℤ) (i j : ℕ) (hi : i < days.length) (hj : j ≤ i) :
    advanceJ days (days.get ⟨i, hi⟩ - 364) j days.length ≤ i
    ∧ advanceJ days (days.get ⟨i, hi⟩ - 364) j days.length < days.length := by
  have hget : days.get ⟨i, hi⟩ = days.getD i 0 := (List.getD_eq_get days 0 hi).symm
  rw [hget]
  obtain ⟨r1, r2, r3, r4⟩ :=
    advanceJ_spec days (days.getD i 0 - 364) days.length j i hj hi (by omega) (by omega)
  exact ⟨r2, by omega⟩

/-- C8 witness on the two-day list 0, 400 with right index 1. -/
theorem rolling_pointer_le_witness :
    advanceJ [(0 : ℤ), 400] ([(0 : ℤ), 400].get ⟨1, by decide⟩ - 364) 0
        ([(0 : ℤ), 400] : List ℤ).length ≤ 1
    ∧ advanceJ [(0 : ℤ), 400] ([(0 : ℤ), 400].get ⟨1, by decide⟩ - 364) 0
        ([(0 : ℤ), 400] : List ℤ).length < ([(0 : ℤ), 400] : List ℤ).length :=
  rolling_pointer_le [(0 : ℤ), 400] 1 0 (by decide) (by decide)

/-- C2 witness: for the residence start 2020-01-01 with the five-year
window, the hypotheses hold and a sixth block (index 5) exists. -/
theorem fixed_blocks_cover_witness :
    5 < (build_fixed_blocks ∅ ⟨2020, 1, 1⟩ (toSerial (addYears ⟨2020, 1, 1⟩ 5)) 180).length :=
  ((fixed_blocks_cover ⟨2020, 1, 1⟩ (toSerial (addYears ⟨2020, 1, 1⟩ 5)) ∅ 180
      (by decide) (by decide)).1 5).mpr (by decide)

/-- C9 witness at the residence start 2020-01-01. -/
theorem fixed_blocks_six_witness :
    (⟨2020, 1, 1⟩ : Date).Valid
    ∧ (build_fixed_blocks ∅ ⟨2020, 1, 1⟩
        (toSerial (compute_dates ⟨2020, 1, 1⟩).1) 180).length = 6 :=
  ⟨by decide, (fixed_blocks_six ⟨2020, 1, 1⟩ ∅ 180 (by decide)).1⟩

/-! Materializer lemmas. -/

lemma mem_foldl_union {α : Type} (f : α → Finset ℤ) :
    ∀ (ts : List α) (acc : Finset ℤ) (d : ℤ),
      d ∈ ts.foldl (fun a t => a ∪ f t) acc ↔ d ∈ acc ∨ ∃ t ∈ ts, d ∈ f t := by
  intro ts
  induction ts with
  | nil => intro acc d; simp
  | cons t ts ih =>
    intro acc d
    simp only [List.foldl_cons]
    rw [ih]
    simp only [Finset.mem_union, List.mem_cons]
    constructor
    · rintro ((hacc | hft) | ⟨t2, ht2, hd⟩)
      · exact Or.inl hacc
      · exact Or.inr ⟨t, Or.inl rfl, hft⟩
      · exact Or.inr ⟨t2, Or.inr ht2, hd⟩
    · rintro (hacc | ⟨t2, (rfl | ht2), hd⟩)
      · exact Or.inl (Or.inl hacc)
      · exact Or.inl (Or.inr hd)
      · exact Or.inr ⟨t2, ht2, hd⟩

lemma normalise_trip_eq_ite (o b : ℤ) :
    normalise_trip (some o, some b)
      = if b < o then (some b, some o) else (some o, some b) := rfl

lemma normalise_trip_some (o b : ℤ) :
    normalise_trip (some o, some b) = (some (min o b), some (max o b)) := by
  rw [normalise_trip_eq_ite]
  split_ifs with h
  · rw [min_eq_right (le_of_lt h), max_eq_left (le_of_lt h)]
  · rw [min_eq_left (le_of_not_lt h), max_eq_right (le_of_not_lt h)]

lemma tripAbsUkvi_some (s e o b : ℤ) (h : o ≤ b) :
    tripAbsUkvi s e (some o, some b) =
      if b - 1 < s ∨ e < o + 1 then ∅
      else if max (o + 1) s ≤ min (b - 1) e then Finset.Icc (max (o + 1) s) (min (b - 1) e)
      else ∅ := by
  have hn : normalise_trip (some o, some b) = (some o, some b) := by
    rw [normalise_trip_eq_ite, if_neg (not_lt.mpr h)]
  simp only [tripAbsUkvi, hn]

lemma tripAbsUkvi_subset (s e : ℤ) (t : RawTrip) :
    tripAbsUkvi s e t ⊆ tripAbsInclusive s e t := by
  obtain ⟨o, b⟩ := t
  rcases o with _ | o
  · intro d hd
    simp only [tripAbsUkvi, normalise_trip] at hd
    exact absurd hd (Finset.not_mem_empty d)
  · rcases b with _ | b
    · intro d hd
      simp only [tripAbsUkvi, normalise_trip] at hd
      exact absurd hd (Finset.not_mem_empty d)
    · intro d hd
      simp only [tripAbsUkvi, normalise_trip_some o b] at hd
      simp only [tripAbsInclusive]
      split_ifs at hd with h1 h2
      · exact absurd hd (Finset.not_mem_empty d)
      · rw [Finset.mem_Icc] at hd
        rw [if_neg (by omega), Finset.mem_Icc]
        omega
      · exact absurd hd (Finset.not_mem_empty d)

/-- C3: on the same trip rows and the same bounding window, the UKVI
whole-day materializer of src/streamlit_ilr_policy_app.py never counts
more absent days than the INCLUSIVE materializer of
src/streamlit_app.py, because each trip contributes a subset of days. -/
theorem ukvi_le_inclusive (trips : List RawTrip) (s e : ℤ) :
    (count_absences_ukvi trips s e).card ≤ (compute_absence_set trips s e).card := by
  apply Finset.card_le_card
  intro d hd
  rw [count_absences_ukvi, mem_foldl_union] at hd
  rw [compute_absence_set, mem_foldl_union]
  rcases hd with hd | ⟨t, ht, hd⟩
  · exact absurd hd (Finset.not_mem_empty d)
  · exact Or.inr ⟨t, ht, tripAbsUkvi_subset s e t hd⟩

/-- C5: membership in the materialized absent-day set of either app is
exactly membership in the span of some trip of the list, so a day
covered by several overlapping trips is counted once; on the concrete
INCLUSIVE trips Mar 1-10 2020 and Mar 5-15 2020 inside the five-year
window of 2020-01-01 the total is 15, not 21. -/
theorem absence_union_dedup :
    (∀ (trips : List RawTrip) (s e d : ℤ),
        d ∈ compute_absence_set trips s e ↔ ∃ t ∈ trips, d ∈ tripAbsInclusive s e t)
    ∧ (∀ (trips : List RawTrip) (s e d : ℤ),
        d ∈ count_absences_ukvi trips s e ↔ ∃ t ∈ trips, d ∈ tripAbsUkvi s e t)
    ∧ (compute_absence_set
        [(some (toSerial ⟨2020, 3, 1⟩), some (toSerial ⟨2020, 3, 10⟩)),
          (some (toSerial ⟨2020, 3, 5⟩), some (toSerial ⟨2020, 3, 15⟩))]
        (toSerial ⟨2020, 1, 1⟩) (toSerial (addYears ⟨2020, 1, 1⟩ 5))).card = 15 := by
  refine ⟨?_, ?_, ?_⟩
  · intro trips s e d
    rw [compute_absence_set, mem_foldl_union]
    simp
  · intro trips s e d
    rw [count_absences_ukvi, mem_foldl_union]
    simp
  · decide

/-- C4: under the UKVI policy a normalized trip with departure o and
return b contributes exactly the days strictly between o and b clipped
to the bounding window; in particular a same-day or next-day return
contributes nothing. -/
theorem ukvi_strict_between (o b s e : ℤ) (h : o ≤ b) :
    tripAbsUkvi s e (some o, some b) = (Finset.Icc s e).filter (fun d => o < d ∧ d < b)
    ∧ (b ≤ o + 1 → tripAbsUkvi s e (some o, some b) = ∅) := by
  constructor
  · ext d
    rw [tripAbsUkvi_some s e o b h]
    split_ifs with h1 h2
    · simp only [Finset.not_mem_empty, false_iff, Finset.mem_filter, Finset.mem_Icc]
      rintro ⟨⟨hd1, hd2⟩, hd3, hd4⟩
      omega
    · simp only [Finset.mem_Icc, Finset.mem_filter]
      constructor
      · rintro ⟨hd1, hd2⟩
        exact ⟨⟨by omega, by omega⟩, by omega, by omega⟩
      · rintro ⟨⟨hd1, hd2⟩, hd3, hd4⟩
        exact ⟨by omega, by omega⟩
    · simp only [Finset.not_mem_empty, false_iff, Finset.mem_filter, Finset.mem_Icc]
      rintro ⟨⟨hd1, hd2⟩, hd3, hd4⟩
      omega
  · intro h2
    rw [tripAbsUkvi_some s e o b h]
    split_ifs with h3 h4
    · rfl
    · exfalso; omega
    · rfl

/-- C4 witness: a same-day trip at day 0 inside the window -10 to 10. -/
theorem ukvi_strict_between_witness :
    tripAbsUkvi (-10) 10 (some 0, some 0)
        = (Finset.Icc (-10 : ℤ) 10).filter (fun d => 0 < d ∧ d < 0)
    ∧ ((0 : ℤ) ≤ 0 + 1 → tripAbsUkvi (-10) 10 (some 0, some 0) = ∅) :=
  ukvi_strict_between 0 0 (-10) 10 (by decide)

/-- C7: a trip row with a missing departure or return is skipped
silently by both materializers: dropping it from any position of the
trip list leaves the computed absent-day set unchanged, and the
normalizer maps it to the empty pair; both functions are total, so
no failure escapes the core for such rows. -/
theorem missing_endpoint_skipped (pre post : List RawTrip) (t : RawTrip) (s e : ℤ)
    (h : t.1 = none ∨ t.2 = none) :
    compute_absence_set (pre ++ t :: post) s e = compute_absence_set (pre ++ post) s e
    ∧ count_absences_ukvi (pre ++ t :: post) s e = count_absences_ukvi (pre ++ post) s e
    ∧ normalise_trip t = (none, none) := by
  have hIncl : tripAbsInclusive s e t = ∅ := by
    obtain ⟨o, b⟩ := t
    rcases o with _ | x
    · rcases b with _ | y <;> rfl
    · rcases b with _ | y
      · rfl
      · simp at h
  have hUkvi : tripAbsUkvi s e t = ∅ := by
    obtain ⟨o, b⟩ := t
    rcases o with _ | x
    · rcases b with _ | y <;> rfl
    · rcases b with _ | y
      · rfl
      · simp at h
  have hNorm : normalise_trip t = (none, none) := by
    obtain ⟨o, b⟩ := t
    rcases o with _ | x
    · rcases b with _ | y <;> rfl
    · rcases b with _ | y
      · rfl
      · simp at h
  refine ⟨?_, ?_, hNorm⟩
  · ext d
    rw [compute_absence_set, compute_absence_set, mem_foldl_union, mem_foldl_union]
    simp only [Finset.not_mem_empty, false_or, List.mem_append, List.mem_cons]
    constructor
    · rintro ⟨t2, (hpre | rfl | hpost), hd⟩
      · exact ⟨t2, Or.inl hpre, hd⟩
      · rw [hIncl] at hd
        exact absurd hd (Finset.not_mem_empty d)
      · exact ⟨t2, Or.inr hpost, hd⟩
    · rintro ⟨t2, (hpre | hpost), hd⟩
      · exact ⟨t2, Or.inl hpre, hd⟩
      · exact ⟨t2, Or.inr (Or.inr hpost), hd⟩
  · ext d
    rw [count_absences_ukvi, count_absences_ukvi, mem_foldl_union, mem_foldl_union]
    simp only [Finset.not_mem_empty, false_or, List.mem_append, List.mem_cons]
    constructor
    · rintro ⟨t2, (hpre | rfl | hpost), hd⟩
      · exact ⟨t2, Or.inl hpre, hd⟩
      · rw [hUkvi] at hd
        exact absurd hd (Finset.not_mem_empty d)
      · exact ⟨t2, Or.inr hpost, hd⟩
    · rintro ⟨t2, (hpre | hpost), hd⟩
      · exact ⟨t2, Or.inl hpre, hd⟩
      · exact ⟨t2, Or.inr (Or.inr hpost), hd⟩

/-- C7 witness: a trip with a missing departure among two intact trips. -/
theorem missing_endpoint_skipped_witness :
    compute_absence_set [(some 1, some 2), (none, some 0), (some 4, some 5)] 0 100
        = compute_absence_set [(some 1, some 2), (some 4, some 5)] 0 100
    ∧ count_absences_ukvi [(some 1, some 2), (none, some 0), (some 4, some 5)] 0 100
        = count_absences_ukvi [(some 1, some 2), (some 4, some 5)] 0 100
    ∧ normalise_trip (none, some 0) = (none, none) :=
  missing_endpoint_skipped [(some 1, some 2)] [(some 4, some 5)] (none, some 0) 0 100
    (Or.inl rfl)

/-- C10: the pre-filter of src/streamlit_ilr_policy_app.py that removes
parsed trips returning before the residence start never changes the
absent-day set computed by count_absences_ukvi, because the whole-day
span of such a trip ends before the window and is discarded by the
window clipping anyway.  The parsed trips the filter runs on are already
normalised, which the hypothesis records. -/
theorem prefilter_preserves_ukvi (trips : List (ℤ × ℤ)) (s e : ℤ)
    (hn : ∀ p ∈ trips, p.1 ≤ p.2) :
    count_absences_ukvi ((prefilterTrips s trips).map (fun p => (some p.1, some p.2))) s e
      = count_absences_ukvi (trips.map (fun p => (some p.1, some p.2))) s e := by
  ext d
  rw [count_absences_ukvi, count_absences_ukvi, mem_foldl_union, mem_foldl_union]
  simp only [Finset.not_mem_empty, false_or, List.mem_map, prefilterTrips,
    List.mem_filter, decide_eq_true_eq]
  constructor
  · rintro ⟨t2, ⟨p, ⟨hp, hfilt⟩, rfl⟩, hd⟩
    exact ⟨_, ⟨p, hp, rfl⟩, hd⟩
  · rintro ⟨t2, ⟨p, hp, rfl⟩, hd⟩
    refine ⟨_, ⟨p, ⟨hp, ?_⟩, rfl⟩, hd⟩
    by_contra hs
    have hple := hn p hp
    rw [tripAbsUkvi_some s e p.1 p.2 hple,
      if_pos (Or.inl (show p.2 - 1 < s by omega))] at hd
    exact absurd hd (Finset.not_mem_empty d)

/-- C10 witness: one normalised trip well inside the window. -/
theorem prefilter_preserves_ukvi_witness :
    count_absences_ukvi ((prefilterTrips 0 [((10 : ℤ), (40 : ℤ))]).map
        (fun p => (some p.1, some p.2))) 0 1000
      = count_absences_ukvi ([((10 : ℤ), (40 : ℤ))].map (fun p => (some p.1, some p.2))) 0 1000 :=
  prefilter_preserves_ukvi [((10 : ℤ), (40 : ℤ))] 0 1000 (by decide)

/-- C6: breach comparisons are strict everywhere.  The overall breach
flag of compute_absence is true exactly when the rolling maximum
strictly exceeds the cap, every fixed block of either app is flagged
exactly when its count strictly exceeds the cap, and a count equal to
the cap is never a breach. -/
theorem breach_strict (trips : List RawTrip) (startDate endDate : Date) (cap : ℕ) :
    ((compute_absence trips startDate endDate cap).breach = true
      ↔ cap < (compute_absence trips startDate endDate cap).max_in_any_window)
    ∧ ((compute_absence trips startDate endDate cap).max_in_any_window = cap →
        (compute_absence trips startDate endDate cap).breach = false)
    ∧ (∀ b ∈ (compute_absence trips startDate endDate cap).fixed_blocks,
        (b.breach = true ↔ cap < b.count) ∧ (b.count = cap → b.breach = false))
    ∧ (∀ (absent : Finset ℤ) (rs : Date) (e : ℤ),
        ∀ b ∈ build_fixed_blocks absent rs e cap,
          (b.breach = true ↔ cap < b.count) ∧ (b.count = cap → b.breach = false)) := by
  have hblock : ∀ (absent : Finset ℤ) (rs : Date) (e : ℤ) (b : FixedBlock),
      b ∈ build_fixed_blocks absent rs e cap →
        (b.breach = true ↔ cap < b.count) ∧ (b.count = cap → b.breach = false) := by
    intro absent rs e b hb
    have h1 : b.breach = decide (cap < b.count) := blocksLoop_breach _ _ _ _ hb
    constructor
    · rw [h1]
      simp
    · intro hc
      rw [h1, hc]
      simp
  refine ⟨?_, ?_, ?_, hblock⟩
  · show decide (cap < (compute_absence trips startDate endDate cap).max_in_any_window) = true
      ↔ cap < (compute_absence trips startDate endDate cap).max_in_any_window
    simp
  · intro hmax
    show decide (cap < (compute_absence trips startDate endDate cap).max_in_any_window) = false
    rw [hmax]
    simp
  · intro b hb
    exact hblock (compute_absence_set trips (toSerial startDate) (toSerial endDate))
      startDate (toSerial endDate) b hb

/-- C6 witness: with no trips and cap 0 the rolling maximum is 0, equal
to the cap, and no breach is flagged. -/
theorem breach_strict_witness :
    ((compute_absence [] ⟨2020, 1, 1⟩ ⟨2025, 1, 1⟩ 0).max_in_any_window = 0 →
      (compute_absence [] ⟨2020, 1, 1⟩ ⟨2025, 1, 1⟩ 0).breach = false)
    ∧ (compute_absence [] ⟨2020, 1, 1⟩ ⟨2025, 1, 1⟩ 0).breach = false := by
  have h0 : (compute_absence [] ⟨2020, 1, 1⟩ ⟨2025, 1, 1⟩ 0).max_in_any_window = 0 := by
    show (rollLoop ((∅ : Finset ℤ).sort (· ≤ ·)) 0 0 0 none
        ((∅ : Finset ℤ).sort (· ≤ ·)).length).1 = 0
    rw [Finset.sort_empty]
    rfl
  exact ⟨(breach_strict [] ⟨2020, 1, 1⟩ ⟨2025, 1, 1⟩ 0).2.1,
    (breach_strict [] ⟨2020, 1, 1⟩ ⟨2025, 1, 1⟩ 0).2.1 h0⟩

end ILR
